import Mathlib

/-!
Verification development for the bldb-ncbi-downloader core
(`src/bldb_ncbi_downloader.py`).

The three core operations are shallowly embedded:

* `extract_ncbi_accessions` — the Reference Extractor: a regex `findall`
  over the markup text followed by query-string decomposition (`parse_qs`).
* `build_efetch_url` — the Query Builder.
* `fetch_fasta_sequence` — the Resilient Fetcher's retry loop, with the
  network abstracted as a function from attempt index to an outcome, and
  the observable effects (number of `session.get` calls, number of
  `sleep(delay)` pauses) recorded in the result.

Text is modelled as `List Char`; Python `None`-able strings as
`Option String`.
-/

/-- The Accession dataclass: one accession identifier plus the three
optional qualifiers, each `None` (here `none`) when absent. -/
structure Accession where
  accession : String
  from_position : Option String := none
  to_position : Option String := none
  strand : Option String := none
  deriving DecidableEq, Repr

/-- The regex pattern `http://www.ncbi.nlm.nih.gov/nuccore/` as a list of
single-character matchers: `some c` is a literal character, `none` is the
regex metacharacter `.` (any character except newline). The four dots in
the pattern string are regex wildcards. -/
def patChars : List (Option Char) :=
  "http://www.ncbi.nlm.nih.gov/nuccore/".data.map
    (fun c => if c = '.' then (none : Option Char) else some c)

/-- Match the fixed pattern against the start of `s`; on success return the
remaining text after the pattern. A wildcard matches any character except
a newline, as Python `.` does without `re.DOTALL`. -/
def matchPat : List (Option Char) → List Char → Option (List Char)
  | [], s => some s
  | _ :: _, [] => none
  | some c :: ps, x :: s => if x = c then matchPat ps s else none
  | none :: ps, x :: s => if x = '\n' then none else matchPat ps s

/-- Attempt the whole regex `http://www.ncbi.nlm.nih.gov/nuccore/([^"]+)`
at the start of `s`: the fixed pattern, then the greedy capture `[^"]+`
(one or more characters other than a double quote, as many as possible).
Returns the capture and the remainder of the text after the match. -/
def tryMatch (s : List Char) : Option (List Char × List Char) :=
  match matchPat patChars s with
  | none => none
  | some r =>
    let cap := r.takeWhile (fun c => c != '\"')
    if cap = [] then none else some (cap, r.dropWhile (fun c => c != '\"'))

/-- `re.findall` scanning: try the pattern at each position from the left;
on a match, record the captured group and resume scanning after the whole
match (non-overlapping), otherwise advance one character. The fuel is the
length of the scanned text; every step consumes at least one character, so
`re_findall` below never exhausts it early. -/
def findallAux : Nat → List Char → List (List Char)
  | 0, _ => []
  | _, [] => []
  | fuel + 1, c :: rest =>
    match tryMatch (c :: rest) with
    | some (cap, rest2) => cap :: findallAux fuel rest2
    | none => findallAux fuel rest

/-- `re.findall(accession_pattern, html_content)`: the list of captured
groups, in source order. -/
def re_findall (s : List Char) : List (List Char) :=
  findallAux s.length s

/-- Hex digit value, as Python percent-escape decoding accepts it
(both cases). -/
def hexVal (c : Char) : Option Nat :=
  if '0' ≤ c ∧ c ≤ '9' then some (c.toNat - '0'.toNat)
  else if 'a' ≤ c ∧ c ≤ 'f' then some (c.toNat - 'a'.toNat + 10)
  else if 'A' ≤ c ∧ c ≤ 'F' then some (c.toNat - 'A'.toNat + 10)
  else none

/-- Decode one percent-escaped byte. ASCII bytes become their character;
a non-ASCII byte becomes U+FFFD, as Python's `errors="replace"` UTF-8
decoding does for a stray high byte. (Multi-byte UTF-8 sequences are not
reassembled in this model; no claim exercises them.) -/
def decodeByte (b : Nat) : Char :=
  if b < 128 then Char.ofNat b else Char.ofNat 0xFFFD

/-- Percent-decoding as in `urllib.parse.unquote`: each `%` followed by two
hex digits becomes the decoded byte; a `%` not followed by two hex digits
is kept literally and scanning resumes right after it. The fuel bounds the
recursion; each step consumes at least one character, so `percentDecode`
below, which passes the text's length, never exhausts it. -/
def percentDecodeAux : Nat → List Char → List Char
  | 0, l => l
  | _, [] => []
  | fuel + 1, c :: rest =>
    if c = '%' then
      match rest with
      | a :: b :: rest2 =>
        match hexVal a, hexVal b with
        | some hi, some lo => decodeByte (16 * hi + lo) :: percentDecodeAux fuel rest2
        | _, _ => c :: percentDecodeAux fuel rest
      | _ => c :: percentDecodeAux fuel rest
    else c :: percentDecodeAux fuel rest

/-- Percent-decoding of a whole text. -/
def percentDecode (l : List Char) : List Char :=
  percentDecodeAux l.length l

/-- The `+` to space replacement `parse_qsl` applies before percent
decoding. -/
def plusToSpace (l : List Char) : List Char :=
  l.map (fun c => if c = '+' then ' ' else c)

/-- `unquote_plus` as `parse_qsl` applies it to names and values:
`+` to space first, then percent decoding. -/
def unquotePlus (l : List Char) : List Char :=
  percentDecode (plusToSpace l)

/-- One `&`-separated segment of a query string, as `parse_qsl` treats it
with `keep_blank_values=False`: a segment without `=` is skipped (this also
skips empty segments); otherwise split at the first `=`; a pair whose raw
value is empty is skipped; otherwise both name and value are URL-decoded. -/
def parsePair (seg : List Char) : Option (String × String) :=
  if '=' ∈ seg then
    if (seg.dropWhile (fun c => c != '=')).drop 1 = [] then none
    else some (String.mk (unquotePlus (seg.takeWhile (fun c => c != '='))),
               String.mk (unquotePlus ((seg.dropWhile (fun c => c != '=')).drop 1)))
  else none

/-- `urllib.parse.parse_qsl` with default arguments: split the query string
on `&` and decode each surviving pair, in order. -/
def parse_qsl (qs : List Char) : List (String × String) :=
  (qs.splitOn '&').filterMap parsePair

/-- `parse_qs(qs).get(key, [None])[0]`: `parse_qs` groups the `parse_qsl`
pairs by name preserving order, so index `[0]` of the group is the value of
the first pair carrying that name, and an absent name yields `None`. -/
def firstValue (ps : List (String × String)) (key : String) : Option String :=
  (ps.find? (fun p => p.1 == key)).map Prod.snd

/-- The loop body of `extract_ncbi_accessions` for one matched run: if the
run contains a `?`, split at the first `?` (`match.split("?", 1)`) and read
the `from`, `to`, `strand` keys out of the parsed query parameters;
otherwise every optional field stays absent. -/
def processMatch (m : List Char) : Accession :=
  if '?' ∈ m then
    { accession := String.mk (m.takeWhile (fun c => c != '?'))
      from_position := firstValue (parse_qsl ((m.dropWhile (fun c => c != '?')).drop 1)) "from"
      to_position := firstValue (parse_qsl ((m.dropWhile (fun c => c != '?')).drop 1)) "to"
      strand := firstValue (parse_qsl ((m.dropWhile (fun c => c != '?')).drop 1)) "strand" }
  else
    { accession := String.mk m }

/-- `extract_ncbi_accessions`: one Accession per regex match, in match
order (the source's append loop over `re.findall`'s result). -/
def extract_ncbi_accessions (html_content : String) : List Accession :=
  (re_findall html_content.data).map processMatch

/-- Python truthiness of an `Optional[str]`: `None` and the empty string
are falsy, every other string is truthy. -/
def strTruthy : Option String → Bool
  | none => false
  | some s => s != ""

/-- `build_efetch_url`: the base locator plus the fixed query parameters,
then the range pair when both positions are truthy, then the strand. -/
def build_efetch_url (accession : String) (from_position : Option String)
    (to_position : Option String) (strand : Option String) : String :=
  let base_url := "https://eutils.ncbi.nlm.nih.gov/entrez/eutils/efetch.fcgi"
  let efetch_url := base_url ++ "?db=nuccore&id=" ++ accession ++ "&rettype=fasta&retmode=text"
  let efetch_url2 :=
    if strTruthy from_position && strTruthy to_position then
      efetch_url ++ ("&seq_start=" ++ from_position.getD "" ++ ("&seq_stop=" ++ to_position.getD ""))
    else efetch_url
  if strTruthy strand then efetch_url2 ++ ("&strand=" ++ strand.getD "") else efetch_url2

/-- Outcome of one `session.get(efetch_url)` call: the exchange completes
with a success status and a body (`response.ok` true), completes with a
non-success status, or raises `ConnectionError`. -/
inductive FetchOutcome where
  | success : String → FetchOutcome
  | failureStatus : FetchOutcome
  | connError : FetchOutcome
  deriving DecidableEq, Repr

/-- Observable result of `fetch_fasta_sequence`: the returned value, the
number of `session.get` calls performed, and the number of `sleep(delay)`
pauses taken. -/
structure FetchResult where
  result : Option String
  netAttempts : Nat
  sleeps : Nat
  deriving DecidableEq, Repr

/-- The `for attempt in range(retries)` loop of `fetch_fasta_sequence`.
`n` is the number of iterations left and `attempt` the Python loop index;
`net` and `sl` accumulate the exchange and pause counts. On success the
body is returned immediately; a completed non-success exchange just falls
through to the next iteration; a `ConnectionError` pauses only when
`attempt < retries - 1`. The embedding is total, so the exception is never
propagated to the caller. -/
def fetchLoop (t : Int → FetchOutcome) (retries : Int) :
    Nat → Int → Nat → Nat → FetchResult
  | 0, _, net, sl => { result := none, netAttempts := net, sleeps := sl }
  | n + 1, attempt, net, sl =>
    match t attempt with
    | .success body => { result := some body, netAttempts := net + 1, sleeps := sl }
    | .failureStatus => fetchLoop t retries n (attempt + 1) (net + 1) sl
    | .connError =>
      if attempt < retries - 1 then fetchLoop t retries n (attempt + 1) (net + 1) (sl + 1)
      else fetchLoop t retries n (attempt + 1) (net + 1) sl

/-- `fetch_fasta_sequence(url, session, retries, delay)` with the network
abstracted as `t : Int → FetchOutcome` (the outcome of the exchange on a
given attempt index). `range(retries)` runs `retries.toNat` iterations
starting at attempt 0, and falls to `return None` when no attempt
returned. `delay` only scales pause duration, which the model counts. -/
def fetch_fasta_sequence (t : Int → FetchOutcome) (retries : Int) : FetchResult :=
  fetchLoop t retries retries.toNat 0 0 0

/-- Spec-side Query Builder range segment, from the claim's words: the
start/stop pair is appended exactly when both positions are present and
non-empty, with the values verbatim; otherwise nothing is appended. -/
def specRangeSegment : Option String → Option String → String
  | some f, some t => if f ≠ "" ∧ t ≠ "" then "&seq_start=" ++ f ++ "&seq_stop=" ++ t else ""
  | _, _ => ""

/-- Spec-side Query Builder strand segment, from the claim's words: the
strand qualifier is appended exactly when the strand is present and
non-empty, independently of the range segment. -/
def specStrandSegment : Option String → String
  | some s => if s ≠ "" then "&strand=" ++ s else ""
  | none => ""

/-- Spec-side Query Builder locator, from the claim's words: always the
base locator with the fixed database, identifier, return-type and
return-mode parameters, then the range segment, then the strand segment. -/
def specQueryLocator (accession : String) (from_position : Option String)
    (to_position : Option String) (strand : Option String) : String :=
  "https://eutils.ncbi.nlm.nih.gov/entrez/eutils/efetch.fcgi" ++ "?db=nuccore&id="
    ++ accession ++ "&rettype=fasta&retmode=text"
    ++ specRangeSegment from_position to_position ++ specStrandSegment strand

/-- Spec-side lookup of one qualifier key, from the claim's words: scan the
`&`-joined segments in order and return the decoded value of the first
segment whose decoded key matches exactly (and whose value survives
parsing); when no segment matches, the field is absent. -/
def specLookupKey (key : String) : List (List Char) → Option String
  | [] => none
  | seg :: rest =>
    match parsePair seg with
    | some (n, v) => if n = key then some v else specLookupKey key rest
    | none => specLookupKey key rest

/-- Spec-side Accession Record for a matched run that contains a `?`, from
the claim's words: the accession is the part before the first `?`; the
query-parameter string after it is parsed as `&`-joined key=value pairs,
and the three fields come from the keys `from`, `to`, `strand` with the
first occurrence winning and absent keys mapping to absent fields. -/
def specRecordOfRun (m : List Char) : Accession :=
  { accession := String.mk (m.takeWhile (fun c => c != '?'))
    from_position := specLookupKey "from" (((m.dropWhile (fun c => c != '?')).drop 1).splitOn '&')
    to_position := specLookupKey "to" (((m.dropWhile (fun c => c != '?')).drop 1).splitOn '&')
    strand := specLookupKey "strand" (((m.dropWhile (fun c => c != '?')).drop 1).splitOn '&') }

theorem str_data_append (a b : String) : (a ++ b).data = a.data ++ b.data := by
  rcases a with ⟨la⟩
  rcases b with ⟨lb⟩
  rfl

theorem str_append_assoc (a b c : String) : a ++ b ++ c = a ++ (b ++ c) := by
  apply String.ext
  simp [str_data_append]

theorem str_append_empty (a : String) : a ++ "" = a := by
  apply String.ext
  simp [str_data_append]

theorem strMk_eq_empty (l : List Char) : String.mk l = "" ↔ l = [] := by
  constructor
  · intro h
    have h2 := congrArg String.data h
    simpa using h2
  · intro h
    subst h
    rfl

theorem percentDecodeAux_cons_ne (n : Nat) (c : Char) (rest : List Char) :
    percentDecodeAux (n + 1) (c :: rest) ≠ [] := by
  intro h
  simp only [percentDecodeAux] at h
  split at h
  all_goals try split at h
  all_goals try split at h
  all_goals simp at h

theorem unquotePlus_ne (l : List Char) (h : l ≠ []) : unquotePlus l ≠ [] := by
  cases l with
  | nil => exact absurd rfl h
  | cons c rest =>
    show percentDecode (plusToSpace (c :: rest)) ≠ []
    simp only [plusToSpace, List.map_cons, percentDecode]
    exact percentDecodeAux_cons_ne _ _ _

theorem parsePair_snd_ne (seg : List Char) (p : String × String)
    (h : parsePair seg = some p) : p.2 ≠ "" := by
  by_cases h1 : '=' ∈ seg
  · by_cases h2 : (seg.dropWhile (fun c => c != '=')).drop 1 = []
    · rw [parsePair, if_pos h1, if_pos h2] at h
      exact absurd h (by simp)
    · rw [parsePair, if_pos h1, if_neg h2] at h
      have hp := Option.some.inj h
      intro he
      rw [← hp] at he
      have he2 : String.mk (unquotePlus ((seg.dropWhile (fun c => c != '=')).drop 1)) = "" := he
      exact unquotePlus_ne _ h2 ((strMk_eq_empty _).mp he2)
  · rw [parsePair, if_neg h1] at h
    exact absurd h (by simp)

theorem parse_qsl_snd_ne (qs : List Char) (p : String × String)
    (hp : p ∈ parse_qsl qs) : p.2 ≠ "" := by
  simp only [parse_qsl, List.mem_filterMap] at hp
  obtain ⟨seg, _, hseg⟩ := hp
  exact parsePair_snd_ne seg p hseg

theorem firstValue_ne_blank (ps : List (String × String)) (key : String)
    (h : ∀ p ∈ ps, p.2 ≠ "") : firstValue ps key ≠ some "" := by
  unfold firstValue
  cases hf : ps.find? (fun p => p.1 == key) with
  | none => simp
  | some p =>
    have hmem : p ∈ ps := List.mem_of_find?_eq_some hf
    simp only [Option.map_some']
    intro he
    exact h p hmem (Option.some.inj he)

theorem firstValue_filterMap (key : String) (L : List (List Char)) :
    firstValue (L.filterMap parsePair) key = specLookupKey key L := by
  induction L with
  | nil => rfl
  | cons seg rest ih =>
    simp only [List.filterMap_cons]
    cases h : parsePair seg with
    | none => simpa [specLookupKey, h] using ih
    | some p =>
      rcases p with ⟨n, v⟩
      simp only [specLookupKey, h]
      by_cases hk : n = key
      · simp [firstValue, List.find?_cons_of_pos, hk]
      · rw [if_neg hk, ← ih]
        simp only [firstValue]
        rw [List.find?_cons_of_neg]
        simp [hk]

theorem tryMatch_cap_ne (s cap rest : List Char) (h : tryMatch s = some (cap, rest)) :
    cap ≠ [] := by
  simp only [tryMatch] at h
  cases hm : matchPat patChars s with
  | none => simp [hm] at h
  | some r =>
    simp only [hm] at h
    by_cases hc : r.takeWhile (fun c => c != '\"') = []
    · rw [if_pos hc] at h
      exact absurd h (by simp)
    · rw [if_neg hc] at h
      have hinj := Option.some.inj h
      have hcap : r.takeWhile (fun c => c != '\"') = cap := congrArg Prod.fst hinj
      rw [← hcap]
      exact hc

theorem findallAux_ne (fuel : Nat) (s : List Char) :
    ∀ m ∈ findallAux fuel s, m ≠ [] := by
  induction fuel generalizing s with
  | zero => simp [findallAux]
  | succ n ih =>
    cases s with
    | nil => simp [findallAux]
    | cons c rest =>
      simp only [findallAux]
      cases ht : tryMatch (c :: rest) with
      | none => exact ih rest
      | some pr =>
        rcases pr with ⟨cap, rest2⟩
        intro m hm
        rcases List.mem_cons.mp hm with h | h
        · subst h
          exact tryMatch_cap_ne _ _ _ ht
        · exact ih rest2 m h

/-- C1: the Query Builder produces exactly the base locator with the fixed
`db`, `id`, `rettype` and `retmode` parameters, appends the
`seq_start`/`seq_stop` pair if and only if both positions are present and
non-empty (values verbatim, no validation, no segment when only one is
present), and appends the `strand` segment if and only if the strand is
present and non-empty, independently of the range segment. -/
theorem claim_C1 (accession : String) (from_position to_position strand : Option String) :
    build_efetch_url accession from_position to_position strand
      = specQueryLocator accession from_position to_position strand := by
  rcases from_position with _ | f <;> rcases to_position with _ | t <;>
    rcases strand with _ | s <;>
      simp only [build_efetch_url, specQueryLocator, specRangeSegment, specStrandSegment,
        strTruthy, Option.getD_some] <;>
      split_ifs <;>
      simp_all [bne_iff_ne, str_append_empty, str_append_assoc]

theorem fetchLoop_noSuccess (n : Nat) :
    ∀ (t : Int → FetchOutcome) (retries attempt : Int) (net sl : Nat),
      (∀ (j : Int) (b : String), attempt ≤ j → j < retries → t j ≠ .success b) →
      attempt + (n : Int) = retries →
      (fetchLoop t retries n attempt net sl).result = none := by
  induction n with
  | zero => intro t retries attempt net sl hns hn; rfl
  | succ k ih =>
    intro t retries attempt net sl hns hn
    have hlt : attempt < retries := by push_cast at hn; omega
    simp only [fetchLoop]
    cases ht : t attempt with
    | success b => exact absurd ht (hns attempt b (le_refl attempt) hlt)
    | failureStatus =>
      exact ih t retries (attempt + 1) (net + 1) sl
        (fun j b hj1 hj2 => hns j b (by omega) hj2) (by push_cast at hn ⊢; omega)
    | connError =>
      split_ifs with hc
      · exact ih t retries (attempt + 1) (net + 1) (sl + 1)
          (fun j b hj1 hj2 => hns j b (by omega) hj2) (by push_cast at hn ⊢; omega)
      · exact ih t retries (attempt + 1) (net + 1) sl
          (fun j b hj1 hj2 => hns j b (by omega) hj2) (by push_cast at hn ⊢; omega)

theorem fetchLoop_firstSuccess (n : Nat) :
    ∀ (t : Int → FetchOutcome) (retries attempt : Int) (net sl : Nat) (k : Int) (b : String),
      attempt ≤ k → k < retries → attempt + (n : Int) = retries →
      t k = .success b →
      (∀ (j : Int) (b2 : String), attempt ≤ j → j < k → t j ≠ .success b2) →
      (fetchLoop t retries n attempt net sl).result = some b ∧
        (fetchLoop t retries n attempt net sl).netAttempts = net + (k - attempt).toNat + 1 := by
  induction n with
  | zero =>
    intro t retries attempt net sl k b hak hkr hn ht hmin
    exfalso
    push_cast at hn
    omega
  | succ nn ih =>
    intro t retries attempt net sl k b hak hkr hn ht hmin
    by_cases he : attempt = k
    · subst he
      have hz : (attempt - attempt).toNat = 0 := by omega
      simp [fetchLoop, ht, hz]
    · have hlt : attempt < k := by omega
      simp only [fetchLoop]
      cases ht2 : t attempt with
      | success b2 => exact absurd ht2 (hmin attempt b2 (le_refl attempt) hlt)
      | failureStatus =>
        have hh := ih t retries (attempt + 1) (net + 1) sl k b (by omega) hkr
          (by push_cast at hn ⊢; omega) ht
          (fun j b2 hj1 hj2 => hmin j b2 (by omega) hj2)
        refine ⟨hh.1, ?_⟩
        rw [hh.2]
        omega
      | connError =>
        have hcond : attempt < retries - 1 := by omega
        rw [if_pos hcond]
        have hh := ih t retries (attempt + 1) (net + 1) (sl + 1) k b (by omega) hkr
          (by push_cast at hn ⊢; omega) ht
          (fun j b2 hj1 hj2 => hmin j b2 (by omega) hj2)
        refine ⟨hh.1, ?_⟩
        rw [hh.2]
        omega

theorem fetchLoop_allConn (n : Nat) :
    ∀ (t : Int → FetchOutcome) (retries attempt : Int) (net sl : Nat),
      1 ≤ n → attempt + (n : Int) = retries →
      (∀ (j : Int), attempt ≤ j → j < retries → t j = .connError) →
      fetchLoop t retries n attempt net sl =
        { result := none, netAttempts := net + n, sleeps := sl + (n - 1) } := by
  induction n with
  | zero => intro t retries attempt net sl h1 hn hc; omega
  | succ nn ih =>
    intro t retries attempt net sl h1 hn hc
    have hlt : attempt < retries := by push_cast at hn; omega
    have ha : t attempt = .connError := hc attempt (le_refl attempt) hlt
    simp only [fetchLoop, ha]
    by_cases hz : nn = 0
    · subst hz
      have hcond : ¬ attempt < retries - 1 := by push_cast at hn; omega
      rw [if_neg hcond]
      simp [fetchLoop]
    · have hcond : attempt < retries - 1 := by push_cast at hn; omega
      rw [if_pos hcond]
      have hh := ih t retries (attempt + 1) (net + 1) (sl + 1) (by omega)
        (by push_cast at hn ⊢; omega) (fun j hj1 hj2 => hc j (by omega) hj2)
      rw [hh]
      congr 1 <;> omega

/-- C2: for every matched run that contains a `?`, the Reference Extractor
splits at the first `?` into accession and query-parameter string, parses
the latter as `&`-joined key=value pairs with URL decoding, fills
`from_position`, `to_position`, `strand` from the keys `from`, `to`,
`strand` by exact case-sensitive match on the decoded key, ignores all
other keys, takes the first value when a key is repeated, and maps every
absent key to an absent field, never to an empty string. -/
theorem claim_C2 (m : List Char) (h : '?' ∈ m) : processMatch m = specRecordOfRun m := by
  simp only [processMatch, if_pos h, specRecordOfRun, parse_qsl, firstValue_filterMap]

theorem claim_C2_witness :
    processMatch "AB1?from=10&from=99".data = specRecordOfRun "AB1?from=10&from=99".data :=
  claim_C2 "AB1?from=10&from=99".data (by decide)

/-- C5 counterexample: on the markup run `?from=10` (prefix immediately
followed by `?`), the split at the first `?` leaves an empty accession, so
not every Accession Record has a non-empty accession field. -/
theorem claim_C5_cex :
    ¬ ∀ (html : String) (r : Accession), r ∈ extract_ncbi_accessions html →
        r.accession ≠ "" := by
  intro h
  exact h "http://www.ncbi.nlm.nih.gov/nuccore/?from=10\""
    { accession := "", from_position := some "10" } (by decide) rfl

/-- C5 (amended): every Accession Record whose source run does not begin
with a `?` has a non-empty accession; a run that begins with `?` (the
prefix immediately followed by the query delimiter) yields an empty
accession, since the accession is the part of the run before the first
`?`. -/
theorem claim_C5_amended (html : String) (i : Nat) (m : List Char) (r : Accession)
    (hm : (re_findall html.data)[i]? = some m)
    (hr : (extract_ncbi_accessions html)[i]? = some r)
    (hhead : m.head? ≠ some '?') : r.accession ≠ "" := by
  have hr2 : (extract_ncbi_accessions html)[i]? = some (processMatch m) := by
    simp [extract_ncbi_accessions, List.getElem?_map, hm]
  rw [hr2] at hr
  have hrm : r = processMatch m := (Option.some.inj hr).symm
  have hne : m ≠ [] := findallAux_ne _ _ m (List.getElem?_mem hm)
  subst hrm
  by_cases hq : '?' ∈ m
  · simp only [processMatch, if_pos hq]
    cases m with
    | nil => exact absurd rfl hne
    | cons c tl =>
      have hc : c ≠ '?' := by
        intro he
        exact hhead (by rw [he]; rfl)
      have hcb : (c != '?') = true := by simp [hc]
      simp [List.takeWhile_cons, hcb, strMk_eq_empty]
  · simp only [processMatch, if_neg hq]
    simp [strMk_eq_empty, hne]

theorem claim_C5_amended_witness :
    (Accession.mk "AB1" none none none).accession ≠ "" :=
  claim_C5_amended "http://www.ncbi.nlm.nih.gov/nuccore/AB1\"" 0 "AB1".data
    (Accession.mk "AB1" none none none) (by decide) (by decide) (by decide)

/-- C7: the Reference Extractor returns exactly one Accession Record per
matched occurrence, in source order, preserving duplicates (its output is
the elementwise image of the match list, of the same length); for markup
with zero occurrences it returns the empty sequence; and a run containing
no `?` yields a record whose three optional fields are all absent. -/
theorem claim_C7 (html : String) :
    extract_ncbi_accessions html = (re_findall html.data).map processMatch
    ∧ (extract_ncbi_accessions html).length = (re_findall html.data).length
    ∧ (re_findall html.data = [] → extract_ncbi_accessions html = [])
    ∧ ∀ m : List Char, '?' ∉ m →
        processMatch m =
          { accession := String.mk m, from_position := none, to_position := none,
            strand := none } := by
  refine ⟨rfl, by simp [extract_ncbi_accessions], ?_, ?_⟩
  · intro h
    simp [extract_ncbi_accessions, h]
  · intro m hm
    simp [processMatch, hm]

theorem claim_C7_witness :
    extract_ncbi_accessions "no reference occurs in this markup" = []
    ∧ processMatch "ABC".data =
        { accession := "ABC", from_position := none, to_position := none, strand := none } :=
  ⟨(claim_C7 "no reference occurs in this markup").2.2.1 (by decide),
   (claim_C7 "no reference occurs in this markup").2.2.2 "ABC".data (by decide)⟩

/-- C8: the Reference Extractor is deterministic — identical input markup
yields identical ordered output; in this embedding it is a pure function of
the input text (the source touches no state and performs no I/O in
`extract_ncbi_accessions`). -/
theorem claim_C8 (html1 html2 : String) (h : html1 = html2) :
    extract_ncbi_accessions html1 = extract_ncbi_accessions html2 := by
  rw [h]

theorem claim_C8_witness :
    extract_ncbi_accessions "http://www.ncbi.nlm.nih.gov/nuccore/AB1\""
      = extract_ncbi_accessions "http://www.ncbi.nlm.nih.gov/nuccore/AB1\"" :=
  claim_C8 "http://www.ncbi.nlm.nih.gov/nuccore/AB1\""
    "http://www.ncbi.nlm.nih.gov/nuccore/AB1\"" rfl

/-- C10: a qualifier key present with an empty value is dropped during
query-string parsing (`keep_blank_values` is off), so the field is absent
exactly as if the key were missing, and no optional field of any extracted
record is ever the empty string; concretely `?from=&to=5` yields an absent
`from_position` and `to_position = "5"`. -/
theorem claim_C10 :
    (∀ (html : String) (r : Accession), r ∈ extract_ncbi_accessions html →
        r.from_position ≠ some "" ∧ r.to_position ≠ some "" ∧ r.strand ≠ some "")
    ∧ extract_ncbi_accessions "http://www.ncbi.nlm.nih.gov/nuccore/AB1?from=&to=5\"" =
        [{ accession := "AB1", from_position := none, to_position := some "5",
           strand := none }] := by
  constructor
  · intro html r hr
    simp only [extract_ncbi_accessions, List.mem_map] at hr
    obtain ⟨m, _, hrm⟩ := hr
    subst hrm
    by_cases hq : '?' ∈ m
    · simp only [processMatch, if_pos hq]
      refine ⟨?_, ?_, ?_⟩ <;>
        exact firstValue_ne_blank _ _ (fun p hp => parse_qsl_snd_ne _ p hp)
    · simp [processMatch, if_neg hq]
  · decide

theorem claim_C10_witness :
    (Accession.mk "AB1" none (some "5") none).from_position ≠ some ""
    ∧ (Accession.mk "AB1" none (some "5") none).to_position ≠ some ""
    ∧ (Accession.mk "AB1" none (some "5") none).strand ≠ some "" :=
  claim_C10.1 "http://www.ncbi.nlm.nih.gov/nuccore/AB1?from=&to=5\""
    (Accession.mk "AB1" none (some "5") none) (by decide)

/-- C3: for every transport and every retries at least 1, the first attempt
whose exchange completes with a success status returns that body
immediately with no further attempts (exactly that many exchanges happen);
and when no attempt observes success, the fetcher returns the explicit
"no sequence obtained" result `none`. The embedding is a total function,
so the connectivity exception is never propagated to the caller. -/
theorem claim_C3 (t : Int → FetchOutcome) (retries : Int) (hr : 1 ≤ retries) :
    (∀ (k : Int) (b : String), 0 ≤ k → k < retries → t k = .success b →
        (∀ (j : Int) (b2 : String), 0 ≤ j → j < k → t j ≠ .success b2) →
        (fetch_fasta_sequence t retries).result = some b ∧
          (fetch_fasta_sequence t retries).netAttempts = k.toNat + 1)
    ∧ ((∀ (j : Int) (b : String), 0 ≤ j → j < retries → t j ≠ .success b) →
        (fetch_fasta_sequence t retries).result = none) := by
  constructor
  · intro k b hk0 hkr ht hmin
    have hh := fetchLoop_firstSuccess retries.toNat t retries 0 0 0 k b hk0 hkr
      (by omega) ht hmin
    refine ⟨hh.1, ?_⟩
    show (fetchLoop t retries retries.toNat 0 0 0).netAttempts = k.toNat + 1
    rw [hh.2]
    omega
  · intro hns
    exact fetchLoop_noSuccess retries.toNat t retries 0 0 0 hns (by omega)

theorem claim_C3_witness :
    (fetch_fasta_sequence (fun i => if i = 1 then .success "OK" else .connError) 3).result
        = some "OK"
    ∧ (fetch_fasta_sequence (fun i => if i = 1 then .success "OK" else .connError) 3).netAttempts
        = 2 := by
  refine (claim_C3 (fun i => if i = 1 then .success "OK" else .connError) 3 (by omega)).1
    1 "OK" (by omega) (by omega) (by decide) ?_
  intro j b2 hj0 hj1
  have hj : j = 0 := by omega
  subst hj
  simp

/-- C4 counterexample: the claim that after a completed exchange with a
non-success status no subsequent exchange is performed for the rest of the
loop is false — with a transport whose attempt 0 completes with a failing
status, `retries = 2` performs a second exchange (two in total) and even
returns its body. -/
theorem claim_C4_cex :
    ¬ ∀ (t : Int → FetchOutcome) (retries k : Int), 0 ≤ k → k < retries →
        t k = .failureStatus →
        (fetch_fasta_sequence t retries).netAttempts ≤ k.toNat + 1 := by
  intro h
  have h1 := h (fun i => if i = 0 then .failureStatus else .success "B") 2 0
    (by omega) (by omega) (by decide)
  have h2 : (fetch_fasta_sequence
      (fun i => if i = 0 then .failureStatus else .success "B") 2).netAttempts = 2 := by
    decide
  omega

/-- C4 (amended): when an attempt's exchange completes with a non-success
status, no exception is raised and no pause is taken, and the loop simply
continues with the next iteration — which performs a further exchange if
iterations remain; the completed non-success exchange is counted and
contributes nothing to the result. -/
theorem claim_C4_amended (t : Int → FetchOutcome) (retries attempt : Int)
    (n net sl : Nat) (h : t attempt = .failureStatus) :
    fetchLoop t retries (n + 1) attempt net sl
      = fetchLoop t retries n (attempt + 1) (net + 1) sl := by
  simp only [fetchLoop, h]

theorem claim_C4_amended_witness :
    fetchLoop (fun _ => .failureStatus) 2 2 0 0 0
      = fetchLoop (fun _ => .failureStatus) 2 1 1 1 0 :=
  claim_C4_amended (fun _ => .failureStatus) 2 0 1 0 0 rfl

/-- C6: with retries = 3 and a transport that fails at the connection layer
on attempts 1 and 2 and succeeds on attempt 3, the fetcher returns the
attempt-3 body after exactly two pauses; and with a transport failing at
the connection layer on all attempts, it returns the "no sequence" result
after exactly `retries` exchanges and `retries - 1` pauses — no pause after
the final attempt. -/
theorem claim_C6 :
    (∀ (t : Int → FetchOutcome) (b : String),
        t 0 = .connError → t 1 = .connError → t 2 = .success b →
        fetch_fasta_sequence t 3 = { result := some b, netAttempts := 3, sleeps := 2 })
    ∧ (∀ (t : Int → FetchOutcome) (retries : Int), 1 ≤ retries →
        (∀ (i : Int), 0 ≤ i → i < retries → t i = .connError) →
        fetch_fasta_sequence t retries =
          { result := none, netAttempts := retries.toNat, sleeps := retries.toNat - 1 }) := by
  constructor
  · intro t b h0 h1 h2
    show fetchLoop t 3 3 0 0 0 = _
    simp [fetchLoop, h0, h1, h2]
  · intro t retries hr hconn
    show fetchLoop t retries retries.toNat 0 0 0 = _
    have hh := fetchLoop_allConn retries.toNat t retries 0 0 0 (by omega) (by omega) hconn
    rw [hh]
    congr 1 <;> omega

theorem claim_C6_witness :
    fetch_fasta_sequence (fun i => if i < 2 then .connError else .success "B3") 3
      = { result := some "B3", netAttempts := 3, sleeps := 2 }
    ∧ fetch_fasta_sequence (fun _ => .connError) 4
      = { result := none, netAttempts := 4, sleeps := 3 } :=
  ⟨claim_C6.1 (fun i => if i < 2 then .connError else .success "B3") "B3"
      (by decide) (by decide) (by decide),
   claim_C6.2 (fun _ => .connError) 4 (by omega) (fun i h1 h2 => rfl)⟩

/-- C9: called with retries = 0 or any non-positive value — outside the
spec's stated precondition — `range(retries)` is empty, so the fetcher
performs zero exchanges and zero pauses and returns the explicit
"no sequence obtained" result `none` rather than raising. -/
theorem claim_C9 (t : Int → FetchOutcome) (retries : Int) (h : retries ≤ 0) :
    fetch_fasta_sequence t retries = { result := none, netAttempts := 0, sleeps := 0 } := by
  have hz : retries.toNat = 0 := by omega
  show fetchLoop t retries retries.toNat 0 0 0 = _
  rw [hz]
  rfl

theorem claim_C9_witness :
    fetch_fasta_sequence (fun _ => .connError) 0
      = { result := none, netAttempts := 0, sleeps := 0 }
    ∧ fetch_fasta_sequence (fun _ => .connError) (-3)
      = { result := none, netAttempts := 0, sleeps := 0 } :=
  ⟨claim_C9 (fun _ => .connError) 0 (by omega),
   claim_C9 (fun _ => .connError) (-3) (by omega)⟩
